import Mathlib

/-!
Verification development for the portofino allocation model and drift engine
(src/allocation.py, src/Analyzer.py).

Numbers are embedded as exact rationals.  Where the source's floating-point
arithmetic can produce non-finite values (pandas division by zero yields
`inf`/`-inf`/`NaN` instead of raising), the affected columns are embedded in
an explicit extended-value type `PFloat` so that the non-finite outcomes are
visible in the model.
-/

namespace Portofino

/-- Relative tolerance of Python's `math.isclose` default (`rel_tol=1e-9`). -/
def relTol : ℚ := 1 / 1000000000

/-- Embedding of Python `math.isclose(a, b)` with default arguments
(`rel_tol=1e-9`, `abs_tol=0.0`): `|a-b| <= max(rel_tol*max(|a|,|b|), abs_tol)`. -/
def isclose (a b : ℚ) : Prop := |a - b| ≤ relTol * max |a| |b|

instance isclose.dec (a b : ℚ) : Decidable (isclose a b) := by
  unfold isclose; infer_instance

/-- Extended value produced by pandas floating-point column arithmetic:
either a finite number, `+inf`, `-inf`, or `NaN`. -/
inductive PFloat where
  | finite (q : ℚ)
  | pinf
  | ninf
  | nan
deriving DecidableEq

/-- Pandas division of a finite value by a finite value (`Series / scalar`,
allocation.py line 215): division by zero silently yields `inf`, `-inf`
or `NaN` according to the sign of the numerator; it does not raise. -/
def fdiv (a b : ℚ) : PFloat :=
  if b ≠ 0 then .finite (a / b)
  else if 0 < a then .pinf
  else if a < 0 then .ninf
  else .nan

/-- Effect of `DataFrame.fillna(0)` (allocation.py line 222) on a cell:
`NaN` becomes `0`; finite and infinite values are unchanged. -/
def PFloat.fillna0 : PFloat → PFloat
  | .nan => .finite 0
  | x => x

/-- Pandas subtraction of a finite scalar from an extended value
(allocation.py line 224, `current_alloc - target_alloc`). -/
def PFloat.subQ : PFloat → ℚ → PFloat
  | .finite a, b => .finite (a - b)
  | .pinf, _ => .pinf
  | .ninf, _ => .ninf
  | .nan, _ => .nan

/-- Recommended action (allocation.py line 227; the source renders these as
the strings `'🟢 Buy'`, `'🔴 Sell'`, `'⏸️ Hold'`). -/
inductive Action where
  | buy
  | sell
  | hold
deriving DecidableEq

/-- One output row of `analyze_allocation` (allocation.py lines 213-228):
the columns of `result_df` for one category. -/
structure DriftRow where
  category : String
  current_value : ℚ
  current_alloc : PFloat
  target_alloc : ℚ
  target_pct : ℚ
  drift : PFloat
  drift_value : ℚ
  target_value : ℚ
  action : Action
deriving DecidableEq

/-- Failure of `analyze_allocation`: the only exception the function itself
raises is `ValueError('Allocations must sum to 1.0, current allocation = {sum}')`
(allocation.py lines 217-218), carrying the computed sum. -/
inductive AnalyzeError where
  | invalidTarget (total : ℚ)
deriving DecidableEq

/-- Distinct keys of a list, keeping the first occurrence of each. -/
def dedupKeys : List String → List String
  | [] => []
  | c :: cs => c :: (dedupKeys cs).filter fun x => ¬ x = c

/-- Embedding of `holdings_df[[key, 'current_value']].groupby([key]).sum()`
(allocation.py line 213): one entry per distinct category, holding the sum of
the current values of that category.  Pandas orders the groups by sorted key;
the order of the entries is immaterial to every property proved below, and
this embedding keeps the keys in order of first occurrence. -/
def groupSum (holdings : List (String × ℚ)) : List (String × ℚ) :=
  (dedupKeys (holdings.map Prod.fst)).map fun c =>
    (c, ((holdings.filter fun p => p.1 = c).map Prod.snd).sum)

/-- One row of the result of `analyze_allocation` for category `c` with
grouped current value `v` and target fraction `t` (allocation.py lines
215, 223-227), after the `fillna(0)` of line 222 has been applied to the
`current_alloc` column. -/
def mkRow (c : String) (v t investable : ℚ) : DriftRow :=
  let ca := (fdiv v investable).fillna0
  let dv := v - t * investable
  { category := c
    current_value := v
    current_alloc := ca
    target_alloc := t
    target_pct := t * 100
    drift := ca.subQ t
    drift_value := dv
    target_value := v - dv
    action := if dv < 0 then .buy else if 0 < dv then .sell else .hold }

/-- Embedding of the outer merge of line 222
(`result_df.merge(desired_allocation_df, how='outer', on=key).fillna(0)`)
followed by the column computations of lines 223-227.  Every grouped holding
row is joined against every target entry with the same category (pandas
replicates a left row once per matching right row; a left row with no match
gets target fraction `0` from `fillna`), and every target entry whose
category is not held contributes one row with current value `0`. -/
def mkRows (grouped targets : List (String × ℚ)) (investable : ℚ) : List DriftRow :=
  (grouped.flatMap fun g =>
    let ms := targets.filter fun t => t.1 = g.1
    if ms = [] then [mkRow g.1 g.2 0 investable]
    else ms.map fun t => mkRow g.1 g.2 t.2 investable)
  ++ ((targets.filter fun t => t.1 ∉ grouped.map Prod.fst).map fun t =>
    mkRow t.1 0 t.2 investable)

/-- Embedding of `analyze_allocation` (allocation.py lines 210-228).
Holdings are the `(key, current_value)` pairs of `holdings_df`; `targets`
is `key_weights`.  The grouped current values and `investable` are computed
first (lines 213-214); the per-row division of line 215 cannot raise (see
`fdiv`), so the only failure is the `ValueError` of lines 217-218, raised
exactly when the target fractions do not sum to `1.0` within
`math.isclose` tolerance. -/
def analyze_allocation (holdings targets : List (String × ℚ))
    (cash_to_invest : ℚ) : Except AnalyzeError (List DriftRow) :=
  let grouped := groupSum holdings
  let investable := ((grouped.map Prod.snd).sum) + cash_to_invest
  let alloc_sum := (targets.map Prod.snd).sum
  if isclose alloc_sum 1 then .ok (mkRows grouped targets investable)
  else .error (.invalidTarget alloc_sum)

/-- Branch lemma: with target fractions summing to 1.0 within tolerance,
`analyze_allocation` succeeds and returns the merged drift rows. -/
theorem analyze_allocation_ok (holdings targets : List (String × ℚ)) (cash : ℚ)
    (h : isclose ((targets.map Prod.snd).sum) 1) :
    analyze_allocation holdings targets cash =
      .ok (mkRows (groupSum holdings) targets
        (((groupSum holdings).map Prod.snd).sum + cash)) := by
  simp [analyze_allocation, h]

/-- Branch lemma: with target fractions not summing to 1.0 within tolerance,
`analyze_allocation` raises, carrying the computed sum. -/
theorem analyze_allocation_err (holdings targets : List (String × ℚ)) (cash : ℚ)
    (h : ¬ isclose ((targets.map Prod.snd).sum) 1) :
    analyze_allocation holdings targets cash =
      .error (.invalidTarget ((targets.map Prod.snd).sum)) := by
  simp [analyze_allocation, h]

theorem mem_dedupKeys {a : String} : ∀ {l : List String}, a ∈ dedupKeys l ↔ a ∈ l
  | [] => by simp [dedupKeys]
  | c :: cs => by
    by_cases h : a = c <;>
      simp [dedupKeys, List.mem_filter, h, mem_dedupKeys (l := cs)]

theorem nodup_dedupKeys : ∀ (l : List String), (dedupKeys l).Nodup
  | [] => by simp [dedupKeys]
  | c :: cs => by
    refine List.nodup_cons.mpr ⟨?_, ?_⟩
    · intro hmem
      have h2 := (List.mem_filter.mp hmem).2
      simp at h2
    · exact (List.filter_sublist _).nodup (nodup_dedupKeys cs)

theorem sum_map_ite_not_mem (a : String) (x : ℚ) :
    ∀ (G : List String), a ∉ G →
      (G.map fun c => if a = c then x else 0).sum = 0
  | [], _ => by simp
  | c :: G, h => by
    have h1 : ¬ a = c := fun e => h (e ▸ List.mem_cons_self c G)
    have h2 : a ∉ G := fun m => h (List.mem_cons_of_mem c m)
    simp [h1, sum_map_ite_not_mem a x G h2]

theorem sum_map_ite_mem (a : String) (x : ℚ) :
    ∀ (G : List String), G.Nodup →
      (G.map fun c => if a = c then x else 0).sum = if a ∈ G then x else 0
  | [], _ => by simp
  | c :: G, h => by
    have hG := (List.nodup_cons.mp h).2
    have hnot := (List.nodup_cons.mp h).1
    by_cases hac : a = c
    · subst hac
      simp [sum_map_ite_not_mem a x G hnot]
    · simp only [List.map_cons, List.sum_cons, hac, if_false, zero_add,
        List.mem_cons]
      rw [sum_map_ite_mem a x G hG]
      simp [hac]

theorem sum_map_add_q {α : Type} (g h : α → ℚ) (l : List α) :
    (l.map fun x => g x + h x).sum = (l.map g).sum + (l.map h).sum := by
  induction l with
  | nil => simp
  | cons a l ih => simp [ih]; ring

/-- Exchanging a sum over distinct keys of per-key filtered sums for a single
filtered sum. -/
theorem sum_map_filter_key (f : String × ℚ → ℚ)
    (L : List (String × ℚ)) (G : List String) (hG : G.Nodup) :
    (G.map fun c => ((L.filter fun p => p.1 = c).map f).sum).sum
      = ((L.filter fun p => p.1 ∈ G).map f).sum := by
  induction L with
  | nil => simp
  | cons p L ih =>
    have step : ∀ c : String,
        (((p :: L).filter fun q => q.1 = c).map f).sum
          = (if p.1 = c then f p else 0) + ((L.filter fun q => q.1 = c).map f).sum := by
      intro c
      by_cases h : p.1 = c <;> simp [List.filter_cons, h]
    simp only [step]
    rw [sum_map_add_q, sum_map_ite_mem p.1 (f p) G hG, ih, List.filter_cons]
    by_cases h : p.1 ∈ G <;> simp [h]

/-- Grouping preserves the total current value: the sum of the grouped values
equals the sum of all holdings' values. -/
theorem groupSum_sum (holdings : List (String × ℚ)) :
    ((groupSum holdings).map Prod.snd).sum = (holdings.map Prod.snd).sum := by
  unfold groupSum
  rw [List.map_map]
  have : (Prod.snd ∘ fun c =>
      (c, ((holdings.filter fun p => p.1 = c).map Prod.snd).sum))
      = fun c => ((holdings.filter fun p => p.1 = c).map Prod.snd).sum := rfl
  rw [this, sum_map_filter_key Prod.snd holdings _ (nodup_dedupKeys _)]
  have hall : (holdings.filter fun p => p.1 ∈ dedupKeys (holdings.map Prod.fst))
      = holdings := by
    apply List.filter_eq_self.mpr
    intro p hp
    simpa [mem_dedupKeys] using List.mem_map_of_mem Prod.fst hp
  rw [hall]

/-- Keys of the grouped holdings list. -/
theorem groupSum_keys (holdings : List (String × ℚ)) :
    (groupSum holdings).map Prod.fst = dedupKeys (holdings.map Prod.fst) := by
  unfold groupSum
  rw [List.map_map]
  exact List.map_id _

theorem mkRow_current_alloc (c : String) (v t I : ℚ) (hI : I ≠ 0) :
    (mkRow c v t I).current_alloc = .finite (v / I) := by
  simp [mkRow, fdiv, hI, PFloat.fillna0]

theorem mkRow_drift (c : String) (v t I : ℚ) (hI : I ≠ 0) :
    (mkRow c v t I).drift = .finite (v / I - t) := by
  simp [mkRow, fdiv, hI, PFloat.fillna0, PFloat.subQ]

theorem mkRow_action_buy (c : String) (v t I : ℚ) (h : v - t * I < 0) :
    (mkRow c v t I).action = .buy := by
  simp [mkRow, h]

theorem mkRow_action_sell (c : String) (v t I : ℚ) (h : 0 < v - t * I) :
    (mkRow c v t I).action = .sell := by
  have h' : ¬ v - t * I < 0 := not_lt.mpr h.le
  simp [mkRow, h, h']

theorem mkRow_action_hold (c : String) (v t I : ℚ) (h : v - t * I = 0) :
    (mkRow c v t I).action = .hold := by
  simp [mkRow, h]

/-- Every row of the merged result comes from `mkRow` applied to some
category, grouped value and target fraction. -/
theorem mem_mkRows {r : DriftRow} {G T : List (String × ℚ)} {I : ℚ}
    (h : r ∈ mkRows G T I) : ∃ c v t, r = mkRow c v t I := by
  unfold mkRows at h
  rcases List.mem_append.mp h with h | h
  · obtain ⟨g, _, hg⟩ := List.mem_flatMap.mp h
    by_cases he : (T.filter fun t => t.1 = g.1) = []
    · rw [if_pos he] at hg
      simp only [List.mem_singleton] at hg
      exact ⟨g.1, g.2, 0, hg⟩
    · rw [if_neg he] at hg
      obtain ⟨t, _, ht⟩ := List.mem_map.mp hg
      exact ⟨g.1, g.2, t.2, ht.symm⟩
  · obtain ⟨t, _, ht⟩ := List.mem_map.mp h
    exact ⟨t.1, 0, t.2, ht.symm⟩

/-- C1: the spec demands that a zero total investable amount with a nonzero
target fraction fail with a DivisionByZero-class error instead of silently
propagating non-finite values.  The code has no such guard: pandas division
by zero does not raise, so `analyze_allocation` on holdings `{A: 100}`,
targets `{A: 1.0}` and `cash_to_invest = -100` (investable `= 0`) returns a
normal result whose `current_alloc` and `drift` columns contain `+inf`. -/
theorem analyze_allocation_zero_investable_unguarded :
    analyze_allocation [("A", 100)] [("A", 1)] (-100) =
      .ok [⟨"A", 100, .pinf, 1, 100, .pinf, 100, 0, .sell⟩] := by
  rw [analyze_allocation_ok _ _ _ (by norm_num [isclose, relTol, abs_eq_max_neg, max_def])]
  rw [show groupSum [("A", 100)] = [("A", 100)] by simp [groupSum, dedupKeys]]
  rw [show ((([("A", (100 : ℚ))]).map Prod.snd).sum + (-100) : ℚ) = 0 by norm_num]
  simp [mkRows, mkRow, fdiv, PFloat.fillna0, PFloat.subQ]

/-- C3: `analyze_allocation` fails with an `InvalidTargetAllocation`-class
error (`ValueError`) carrying the computed sum if and only if the target
fractions do not sum to 1.0 within `math.isclose` tolerance; no drift rows
are returned in that case, and a target set summing to 0.9 is rejected with
sum 0.9 reported. -/
theorem analyze_allocation_invalid_target_iff (holdings targets : List (String × ℚ))
    (cash : ℚ) :
    (analyze_allocation holdings targets cash
        = .error (.invalidTarget ((targets.map Prod.snd).sum))
      ↔ ¬ isclose ((targets.map Prod.snd).sum) 1) ∧
    ((∃ e, analyze_allocation holdings targets cash = .error e)
      ↔ ¬ isclose ((targets.map Prod.snd).sum) 1) ∧
    ((∃ rows, analyze_allocation holdings targets cash = .ok rows)
      ↔ isclose ((targets.map Prod.snd).sum) 1) ∧
    analyze_allocation [] [("A", 0.45), ("B", 0.45)] 0
      = .error (.invalidTarget 0.9) := by
  refine ⟨?_, ?_, ?_, ?_⟩
  · by_cases h : isclose ((targets.map Prod.snd).sum) 1
    · simp [analyze_allocation_ok holdings targets cash h, h]
    · simp [analyze_allocation_err holdings targets cash h, h]
  · by_cases h : isclose ((targets.map Prod.snd).sum) 1
    · simp [analyze_allocation_ok holdings targets cash h, h]
    · simp [analyze_allocation_err holdings targets cash h, h]
  · by_cases h : isclose ((targets.map Prod.snd).sum) 1
    · simp [analyze_allocation_ok holdings targets cash h, h]
    · simp [analyze_allocation_err holdings targets cash h, h]
  · rw [analyze_allocation_err _ _ _ (by norm_num [isclose, relTol, abs_eq_max_neg, max_def])]
    norm_num

/-- C2 (counterexample): the claim quantifies over every holdings input and
cash amount, but when the investable amount is 0 the output rows'
`current_alloc` is `+inf` or `-inf`, which equals no finite quotient at all,
so the per-row equation `currentAlloc = currentValue / investable` fails. -/
theorem analyze_allocation_row_formulas_cex :
    (analyze_allocation [("B", 7), ("C", -7)] [("B", 1), ("C", 0)] 0).toOption.map
        (List.map DriftRow.current_alloc) = some [.pinf, .ninf] ∧
    PFloat.pinf ≠ PFloat.finite ((7 : ℚ) / 0) ∧
    PFloat.ninf ≠ PFloat.finite ((-7 : ℚ) / 0) := by
  refine ⟨?_, by simp, by simp⟩
  rw [analyze_allocation_ok _ _ _ (by norm_num [isclose, relTol, abs_eq_max_neg, max_def])]
  rw [show groupSum [("B", 7), ("C", -7)] = [("B", 7), ("C", -7)] by
    simp [groupSum, dedupKeys]]
  rw [show ((([("B", (7 : ℚ)), ("C", -7)]).map Prod.snd).sum + 0 : ℚ) = 0 by norm_num]
  simp [mkRows, mkRow, fdiv, PFloat.fillna0, PFloat.subQ, Except.toOption]
  norm_num

/-- C2 (amended: provided the investable amount is nonzero): every output row
of `analyze_allocation` satisfies the column equations of allocation.py lines
215 and 223-227 — `currentAlloc = currentValue / investable`,
`targetPct = targetFraction * 100`, `driftFraction = currentAlloc -
targetFraction`, `driftValue = currentValue - targetFraction * investable`,
`targetValue = currentValue - driftValue = targetFraction * investable` —
and the action is Buy for `driftValue < 0`, Sell for `driftValue > 0`, Hold
for exactly 0 (strict sign comparison).  In particular the spec scenario
holdings `{A: 600, B: 200}`, targets `{A: 0.6, B: 0.4}`, cash 0 gives
investable 800, row A with allocation 0.75, drift 120, Sell, and row B with
allocation 0.25, drift -120, Buy. -/
theorem analyze_allocation_row_formulas (holdings targets : List (String × ℚ))
    (cash : ℚ)
    (hs : isclose ((targets.map Prod.snd).sum) 1)
    (hI : (holdings.map Prod.snd).sum + cash ≠ 0) :
    (∃ rows, analyze_allocation holdings targets cash = .ok rows ∧
      ∀ r ∈ rows,
        r.current_alloc
            = .finite (r.current_value / ((holdings.map Prod.snd).sum + cash)) ∧
        r.target_pct = r.target_alloc * 100 ∧
        r.drift = .finite (r.current_value / ((holdings.map Prod.snd).sum + cash)
            - r.target_alloc) ∧
        r.drift_value
            = r.current_value - r.target_alloc * ((holdings.map Prod.snd).sum + cash) ∧
        r.target_value = r.current_value - r.drift_value ∧
        r.target_value = r.target_alloc * ((holdings.map Prod.snd).sum + cash) ∧
        (r.drift_value < 0 → r.action = .buy) ∧
        (0 < r.drift_value → r.action = .sell) ∧
        (r.drift_value = 0 → r.action = .hold)) ∧
    analyze_allocation [("A", 600), ("B", 200)] [("A", 0.6), ("B", 0.4)] 0 =
      .ok [⟨"A", 600, .finite (3/4), 3/5, 60, .finite (3/20), 120, 480, .sell⟩,
           ⟨"B", 200, .finite (1/4), 2/5, 40, .finite (-(3/20)), -120, 320, .buy⟩] := by
  constructor
  · refine ⟨_, analyze_allocation_ok holdings targets cash hs, ?_⟩
    intro r hr
    have hI' : ((groupSum holdings).map Prod.snd).sum + cash ≠ 0 := by
      rw [groupSum_sum]; exact hI
    obtain ⟨c, v, t, rfl⟩ := mem_mkRows hr
    rw [groupSum_sum] at *
    set I := (holdings.map Prod.snd).sum + cash with hIdef
    refine ⟨?_, rfl, ?_, rfl, ?_, ?_, ?_, ?_, ?_⟩
    · rw [mkRow_current_alloc c v t I hI]; rfl
    · rw [mkRow_drift c v t I hI]; rfl
    · show v - (v - t * I) = v - (v - t * I); rfl
    · show v - (v - t * I) = t * I; ring
    · intro h
      exact mkRow_action_buy c v t I h
    · intro h
      exact mkRow_action_sell c v t I h
    · intro h
      exact mkRow_action_hold c v t I h
  · rw [analyze_allocation_ok _ _ _ (by norm_num [isclose, relTol, abs_eq_max_neg, max_def])]
    rw [show groupSum [("A", 600), ("B", 200)] = [("A", 600), ("B", 200)] by
      simp [groupSum, dedupKeys]]
    rw [show ((([("A", (600 : ℚ)), ("B", 200)]).map Prod.snd).sum + 0 : ℚ) = 800 by
      norm_num]
    simp [mkRows, mkRow, fdiv, PFloat.fillna0, PFloat.subQ]
    norm_num

/-- C2 (witness): the amended row-formula theorem applied to the spec
scenario, whose investable amount 800 is nonzero and whose target fractions
sum to exactly 1. -/
theorem analyze_allocation_row_formulas_witness :
    ∃ rows, analyze_allocation [("A", 600), ("B", 200)] [("A", 0.6), ("B", 0.4)] 0
        = .ok rows ∧
      ∀ r ∈ rows,
        r.current_alloc = .finite (r.current_value /
          (([(("A" : String), (600 : ℚ)), ("B", 200)].map Prod.snd).sum + 0)) ∧
        r.target_pct = r.target_alloc * 100 ∧
        r.drift = .finite (r.current_value /
          (([(("A" : String), (600 : ℚ)), ("B", 200)].map Prod.snd).sum + 0)
            - r.target_alloc) ∧
        r.drift_value = r.current_value - r.target_alloc *
          (([(("A" : String), (600 : ℚ)), ("B", 200)].map Prod.snd).sum + 0) ∧
        r.target_value = r.current_value - r.drift_value ∧
        r.target_value = r.target_alloc *
          (([(("A" : String), (600 : ℚ)), ("B", 200)].map Prod.snd).sum + 0) ∧
        (r.drift_value < 0 → r.action = .buy) ∧
        (0 < r.drift_value → r.action = .sell) ∧
        (r.drift_value = 0 → r.action = .hold) :=
  (analyze_allocation_row_formulas [("A", 600), ("B", 200)] [("A", 0.6), ("B", 0.4)] 0
    (by norm_num [isclose, relTol, abs_eq_max_neg, max_def])
    (by norm_num)).1

theorem filter_key_length (T : List (String × ℚ)) (c : String) :
    (T.filter fun t => t.1 = c).length = (T.map Prod.fst).count c := by
  rw [List.count, List.countP_map, ← List.countP_eq_length_filter]
  apply List.countP_congr
  intro t _
  simp [Function.comp]

theorem filter_key_length_le (T : List (String × ℚ)) (c : String)
    (hT : (T.map Prod.fst).Nodup) :
    (T.filter fun t => t.1 = c).length ≤ 1 := by
  rw [filter_key_length]
  exact List.nodup_iff_count_le_one.mp hT c

theorem filter_key_eq_nil (T : List (String × ℚ)) (c : String) :
    ((T.filter fun t => t.1 = c) = []) ↔ c ∉ T.map Prod.fst := by
  rw [List.filter_eq_nil_iff]
  constructor
  · intro h hc
    obtain ⟨t, ht, rfl⟩ := List.mem_map.mp hc
    exact h t ht (by simp)
  · intro h t ht hc
    have hc' : t.1 = c := by simpa using hc
    exact h (hc' ▸ List.mem_map_of_mem Prod.fst ht)

/-- Categories of the merged rows: under distinct target categories, one row
per grouped holding plus one row per unheld target. -/
theorem mkRows_categories (G T : List (String × ℚ)) (I : ℚ)
    (hT : (T.map Prod.fst).Nodup) :
    (mkRows G T I).map DriftRow.category
      = G.map Prod.fst ++ (T.filter fun t => t.1 ∉ G.map Prod.fst).map Prod.fst := by
  unfold mkRows
  rw [List.map_append]
  congr 1
  · rw [List.map_flatMap]
    induction G with
    | nil => simp
    | cons g G ih =>
      rw [List.flatMap_cons, List.map_cons, ← ih]
      by_cases he : (T.filter fun t => t.1 = g.1) = []
      · simp [he, mkRow]
      · have hle := filter_key_length_le T g.1 hT
        have hpos : 0 < (T.filter fun t => t.1 = g.1).length :=
          List.length_pos.mpr he
        obtain ⟨t0, ht0⟩ := List.length_eq_one.mp (le_antisymm hle hpos)
        simp [he, ht0, mkRow]
  · rw [List.map_map]
    apply List.map_congr_left
    intro t _
    simp [mkRow]

/-- Classification of a merged row by its origin: a held category with no
matching target, a held category joined to a matching target, or an unheld
target category. -/
theorem mem_mkRows_cases {r : DriftRow} {G T : List (String × ℚ)} {I : ℚ}
    (h : r ∈ mkRows G T I) :
    (∃ g ∈ G, (T.filter fun t => t.1 = g.1) = [] ∧ r = mkRow g.1 g.2 0 I) ∨
    (∃ g ∈ G, ∃ t ∈ T, t.1 = g.1 ∧ r = mkRow g.1 g.2 t.2 I) ∨
    (∃ t ∈ T, t.1 ∉ G.map Prod.fst ∧ r = mkRow t.1 0 t.2 I) := by
  unfold mkRows at h
  rcases List.mem_append.mp h with h | h
  · obtain ⟨g, hg, hmem⟩ := List.mem_flatMap.mp h
    by_cases he : (T.filter fun t => t.1 = g.1) = []
    · rw [if_pos he] at hmem
      simp only [List.mem_singleton] at hmem
      exact Or.inl ⟨g, hg, he, hmem⟩
    · rw [if_neg he] at hmem
      obtain ⟨t, ht, htr⟩ := List.mem_map.mp hmem
      have ht' := List.mem_filter.mp ht
      exact Or.inr (Or.inl ⟨g, hg, t, ht'.1, by simpa using ht'.2, htr.symm⟩)
  · obtain ⟨t, ht, htr⟩ := List.mem_map.mp h
    have ht' := List.mem_filter.mp ht
    exact Or.inr (Or.inr ⟨t, ht'.1, by simpa using ht'.2, htr.symm⟩)

/-- C5 (counterexample): with a duplicated target category, the pandas outer
merge of allocation.py line 222 replicates the held row once per matching
target entry, so a category can appear more than once in the output even
though the target fractions sum to 1.0: holdings `{A: 100}` with targets
`[(A, 0.5), (A, 0.5)]` produce two rows for `A`. -/
theorem analyze_allocation_outer_join_cex :
    isclose (([(("A" : String), (1 : ℚ)/2), ("A", 1/2)].map Prod.snd).sum) 1 ∧
    (analyze_allocation [("A", 100)] [("A", 1/2), ("A", 1/2)] 0).toOption.map
      (fun rs => (rs.map DriftRow.category).count "A") = some 2 := by
  refine ⟨by norm_num [isclose, relTol, abs_eq_max_neg, max_def], ?_⟩
  rw [analyze_allocation_ok _ _ _ (by norm_num [isclose, relTol, abs_eq_max_neg, max_def])]
  rw [show groupSum [("A", 100)] = [("A", 100)] by simp [groupSum, dedupKeys]]
  rw [show ((([("A", (100 : ℚ))]).map Prod.snd).sum + 0 : ℚ) = 100 by norm_num]
  simp [mkRows, mkRow, fdiv, PFloat.fillna0, PFloat.subQ, Except.toOption]

/-- C5 (amended: provided the target categories are pairwise distinct): the
output of `analyze_allocation` contains exactly one row per category present
in either input (outer join); a category present only in the targets appears
with current value 0, and a category held but absent from the targets appears
with target fraction 0 and drift value equal to its full current value, with
action Sell whenever that value is positive. -/
theorem analyze_allocation_outer_join (holdings targets : List (String × ℚ))
    (cash : ℚ)
    (hnd : (targets.map Prod.fst).Nodup)
    (hs : isclose ((targets.map Prod.snd).sum) 1) :
    ∃ rows, analyze_allocation holdings targets cash = .ok rows ∧
      (∀ cat : String, (rows.map DriftRow.category).count cat
          = if cat ∈ holdings.map Prod.fst ∨ cat ∈ targets.map Prod.fst then 1
            else 0) ∧
      (∀ r ∈ rows,
        (r.category ∉ holdings.map Prod.fst → r.current_value = 0) ∧
        (r.category ∉ targets.map Prod.fst →
          r.target_alloc = 0 ∧ r.drift_value = r.current_value ∧
          (0 < r.current_value → r.action = .sell))) := by
  refine ⟨_, analyze_allocation_ok holdings targets cash hs, ?_, ?_⟩
  · intro cat
    rw [mkRows_categories _ _ _ hnd, List.count_append, groupSum_keys]
    have hGnd : (dedupKeys (holdings.map Prod.fst)).Nodup := nodup_dedupKeys _
    have hBnd : ((targets.filter fun t =>
        t.1 ∉ dedupKeys (holdings.map Prod.fst)).map Prod.fst).Nodup :=
      ((List.filter_sublist targets).map Prod.fst).nodup hnd
    have hmemB : ∀ c : String, c ∈ ((targets.filter fun t =>
        t.1 ∉ dedupKeys (holdings.map Prod.fst)).map Prod.fst) ↔
        (c ∈ targets.map Prod.fst ∧ c ∉ holdings.map Prod.fst) := by
      intro c
      constructor
      · intro hc
        obtain ⟨t, ht, rfl⟩ := List.mem_map.mp hc
        have ht' := List.mem_filter.mp ht
        refine ⟨List.mem_map_of_mem Prod.fst ht'.1, ?_⟩
        have := ht'.2
        simpa [mem_dedupKeys] using this
      · rintro ⟨hc1, hc2⟩
        obtain ⟨t, ht, rfl⟩ := List.mem_map.mp hc1
        refine List.mem_map_of_mem Prod.fst (List.mem_filter.mpr ⟨ht, ?_⟩)
        simpa [mem_dedupKeys] using hc2
    by_cases h1 : cat ∈ holdings.map Prod.fst
    · rw [List.count_eq_one_of_mem hGnd (mem_dedupKeys.mpr h1),
        List.count_eq_zero.mpr (fun hc => ((hmemB cat).mp hc).2 h1)]
      simp [h1]
    · rw [List.count_eq_zero.mpr (fun hc => h1 (mem_dedupKeys.mp hc))]
      by_cases h2 : cat ∈ targets.map Prod.fst
      · rw [List.count_eq_one_of_mem hBnd ((hmemB cat).mpr ⟨h2, h1⟩)]
        simp [h1, h2]
      · rw [List.count_eq_zero.mpr (fun hc => h2 ((hmemB cat).mp hc).1)]
        simp [h1, h2]
  · intro r hr
    have hkeys : ∀ g ∈ groupSum holdings, g.1 ∈ holdings.map Prod.fst := by
      intro g hg
      have := List.mem_map_of_mem Prod.fst hg
      rw [groupSum_keys] at this
      exact mem_dedupKeys.mp this
    rcases mem_mkRows_cases hr with ⟨g, hg, hms, rfl⟩ | ⟨g, hg, t, ht, htg, rfl⟩ |
      ⟨t, ht, htG, rfl⟩
    · constructor
      · intro hnot
        exact absurd (hkeys g hg) (by simpa [mkRow] using hnot)
      · intro _
        refine ⟨rfl, by simp [mkRow], ?_⟩
        intro hpos
        apply mkRow_action_sell
        have h2 : (0 : ℚ) < g.2 := by simpa [mkRow] using hpos
        simpa using h2
    · constructor
      · intro hnot
        exact absurd (hkeys g hg) (by simpa [mkRow] using hnot)
      · intro hnot
        exact absurd (htg ▸ List.mem_map_of_mem Prod.fst ht)
          (by simpa [mkRow] using hnot)
    · constructor
      · intro _
        simp [mkRow]
      · intro hnot
        exact absurd (List.mem_map_of_mem Prod.fst ht)
          (by simpa [mkRow] using hnot)

/-- C5 (witness): the outer-join theorem applied to holdings
`{A: 600, C: 50}` and targets `{A: 0.6, B: 0.4}` (distinct categories,
summing to 1). -/
theorem analyze_allocation_outer_join_witness :
    ∃ rows, analyze_allocation [("A", 600), ("C", 50)] [("A", 0.6), ("B", 0.4)] 0
        = .ok rows ∧
      (∀ cat : String, (rows.map DriftRow.category).count cat
          = if cat ∈ [(("A" : String), (600 : ℚ)), ("C", 50)].map Prod.fst ∨
              cat ∈ [(("A" : String), (0.6 : ℚ)), ("B", 0.4)].map Prod.fst then 1
            else 0) ∧
      (∀ r ∈ rows,
        (r.category ∉ [(("A" : String), (600 : ℚ)), ("C", 50)].map Prod.fst →
          r.current_value = 0) ∧
        (r.category ∉ [(("A" : String), (0.6 : ℚ)), ("B", 0.4)].map Prod.fst →
          r.target_alloc = 0 ∧ r.drift_value = r.current_value ∧
          (0 < r.current_value → r.action = .sell))) :=
  analyze_allocation_outer_join [("A", 600), ("C", 50)] [("A", 0.6), ("B", 0.4)] 0
    (by simp) (by norm_num [isclose, relTol, abs_eq_max_neg, max_def])

theorem sum_map_flatMap {α β : Type} (f : α → List β) (g : β → ℚ) (l : List α) :
    ((l.flatMap f).map g).sum = (l.map fun a => ((f a).map g).sum).sum := by
  induction l with
  | nil => simp
  | cons a l ih => simp [List.flatMap_cons, ih]

theorem sum_map_sub_q {α : Type} (g h : α → ℚ) (l : List α) :
    (l.map fun x => g x - h x).sum = (l.map g).sum - (l.map h).sum := by
  induction l with
  | nil => simp
  | cons a l ih => simp [ih]; ring

theorem sum_map_filter_split (f : String × ℚ → ℚ) (G : List String)
    (l : List (String × ℚ)) :
    ((l.filter fun t => t.1 ∈ G).map f).sum
      + ((l.filter fun t => t.1 ∉ G).map f).sum = (l.map f).sum := by
  induction l with
  | nil => simp
  | cons a l ih =>
    simp only [decide_not] at ih
    by_cases h : a.1 ∈ G <;> simp [List.filter_cons, h, decide_not] <;> linarith [ih]

/-- Total drift value of the merged rows: under distinct categories on both
sides, the drift values sum to the grouped total minus `investable` times the
target total. -/
theorem mkRows_drift_value_sum (G T : List (String × ℚ)) (I : ℚ)
    (hG : (G.map Prod.fst).Nodup) (hT : (T.map Prod.fst).Nodup) :
    ((mkRows G T I).map DriftRow.drift_value).sum
      = (G.map Prod.snd).sum - I * (T.map Prod.snd).sum := by
  unfold mkRows
  rw [List.map_append, List.sum_append, sum_map_flatMap]
  have hA : ∀ g ∈ G, ((if (T.filter fun t => t.1 = g.1) = []
        then [mkRow g.1 g.2 0 I]
        else (T.filter fun t => t.1 = g.1).map fun t => mkRow g.1 g.2 t.2 I).map
          DriftRow.drift_value).sum
      = g.2 - I * (((T.filter fun t => t.1 = g.1).map Prod.snd).sum) := by
    intro g _
    by_cases he : (T.filter fun t => t.1 = g.1) = []
    · simp [he, mkRow]
    · have hle := filter_key_length_le T g.1 hT
      have hpos : 0 < (T.filter fun t => t.1 = g.1).length := List.length_pos.mpr he
      obtain ⟨t0, ht0⟩ := List.length_eq_one.mp (le_antisymm hle hpos)
      simp [he, ht0, mkRow]
      ring
  rw [List.map_congr_left hA, sum_map_sub_q]
  have h1 : (G.map fun g => I * (((T.filter fun t => t.1 = g.1).map Prod.snd).sum)).sum
      = I * ((T.filter fun t => t.1 ∈ G.map Prod.fst).map Prod.snd).sum := by
    rw [List.sum_map_mul_left, ← sum_map_filter_key Prod.snd T (G.map Prod.fst) hG]
    congr 1
    have : (G.map Prod.fst).map (fun c =>
        ((T.filter fun p => p.1 = c).map Prod.snd).sum)
        = G.map fun g => ((T.filter fun t => t.1 = g.1).map Prod.snd).sum := by
      rw [List.map_map]
      rfl
    rw [this]
  rw [List.map_map]
  have h2 : (List.map (DriftRow.drift_value ∘ fun t => mkRow t.1 0 t.2 I)
        (T.filter fun t => t.1 ∉ G.map Prod.fst)).sum
      = -I * ((T.filter fun t => t.1 ∉ G.map Prod.fst).map Prod.snd).sum := by
    have hc : ∀ t ∈ (T.filter fun t => t.1 ∉ G.map Prod.fst),
        (DriftRow.drift_value ∘ fun t => mkRow t.1 0 t.2 I) t = -I * t.2 := by
      intro t _
      show (mkRow t.1 0 t.2 I).drift_value = -I * t.2
      simp only [mkRow]
      ring
    rw [List.map_congr_left hc, List.sum_map_mul_left]
  rw [h2, h1]
  have hsplit := sum_map_filter_split Prod.snd (G.map Prod.fst) T
  have hIsplit : I * ((T.filter fun t => t.1 ∈ G.map Prod.fst).map Prod.snd).sum
      + I * ((T.filter fun t => t.1 ∉ G.map Prod.fst).map Prod.snd).sum
      = I * (T.map Prod.snd).sum := by
    rw [← hsplit]
    ring
  have hg2 : (G.map fun g => g.2).sum = (G.map Prod.snd).sum := rfl
  rw [hg2]
  linarith

/-- C9 (counterexample): with a duplicated target category the held value is
replicated across the joined rows, so even though the target fractions sum to
exactly 1 and the cash to invest is 0, the drift values sum to 50, not 0:
holdings `{D: 50}` against targets `[(D, 0.75), (D, 0.25)]`. -/
theorem analyze_allocation_drift_sum_cex :
    isclose (([(("D" : String), (3 : ℚ)/4), ("D", 1/4)].map Prod.snd).sum) 1 ∧
    (analyze_allocation [("D", 50)] [("D", 3/4), ("D", 1/4)] 0).toOption.map
      (fun rs => (rs.map DriftRow.drift_value).sum) = some 50 ∧
    ¬ isclose 50 0 := by
  refine ⟨by norm_num [isclose, relTol, abs_eq_max_neg, max_def], ?_,
    by norm_num [isclose, relTol, abs_eq_max_neg, max_def]⟩
  rw [analyze_allocation_ok _ _ _ (by norm_num [isclose, relTol, abs_eq_max_neg, max_def])]
  rw [show groupSum [("D", 50)] = [("D", 50)] by simp [groupSum, dedupKeys]]
  rw [show ((([("D", (50 : ℚ))]).map Prod.snd).sum + 0 : ℚ) = 50 by norm_num]
  simp [mkRows, mkRow, fdiv, PFloat.fillna0, PFloat.subQ, Except.toOption]
  norm_num

/-- C9 (amended: provided the target categories are pairwise distinct): with
zero cash to invest, the drift values of the output rows sum to
`total * (1 - targetSum)` exactly; since the target fractions sum to 1 within
`math.isclose` tolerance, that total drift is 0 up to the same relative
tolerance scaled by the invested total (and exactly 0 when the fractions sum
to exactly 1). -/
theorem analyze_allocation_drift_zero_sum (holdings targets : List (String × ℚ))
    (hnd : (targets.map Prod.fst).Nodup)
    (hs : isclose ((targets.map Prod.snd).sum) 1) :
    ∃ rows, analyze_allocation holdings targets 0 = .ok rows ∧
      (rows.map DriftRow.drift_value).sum
        = (holdings.map Prod.snd).sum * (1 - (targets.map Prod.snd).sum) ∧
      |(rows.map DriftRow.drift_value).sum|
        ≤ relTol * max |(targets.map Prod.snd).sum| 1 * |(holdings.map Prod.snd).sum| := by
  refine ⟨_, analyze_allocation_ok holdings targets 0 hs, ?_, ?_⟩
  · rw [mkRows_drift_value_sum _ _ _
      (by rw [groupSum_keys]; exact nodup_dedupKeys _) hnd]
    rw [groupSum_sum]
    ring
  · rw [mkRows_drift_value_sum _ _ _
      (by rw [groupSum_keys]; exact nodup_dedupKeys _) hnd]
    rw [groupSum_sum]
    have hV : ((holdings.map Prod.snd).sum
        - ((holdings.map Prod.snd).sum + 0) * (targets.map Prod.snd).sum)
        = (holdings.map Prod.snd).sum * (1 - (targets.map Prod.snd).sum) := by ring
    rw [hV, abs_mul]
    have hdist : |1 - (targets.map Prod.snd).sum|
        ≤ relTol * max |(targets.map Prod.snd).sum| 1 := by
      have := hs
      unfold isclose at this
      calc |1 - (targets.map Prod.snd).sum|
          = |(targets.map Prod.snd).sum - 1| := abs_sub_comm _ _
        _ ≤ relTol * max |(targets.map Prod.snd).sum| |(1 : ℚ)| := this
        _ = relTol * max |(targets.map Prod.snd).sum| 1 := by rw [abs_one]
    calc |(holdings.map Prod.snd).sum| * |1 - (targets.map Prod.snd).sum|
        ≤ |(holdings.map Prod.snd).sum| * (relTol * max |(targets.map Prod.snd).sum| 1) :=
          mul_le_mul_of_nonneg_left hdist (abs_nonneg _)
      _ = relTol * max |(targets.map Prod.snd).sum| 1 * |(holdings.map Prod.snd).sum| := by
          ring

/-- C9 (witness): the zero-sum theorem applied to holdings
`{X: 30, Y: 70}` and targets `{X: 0.5, Y: 0.5}` with zero cash. -/
theorem analyze_allocation_drift_zero_sum_witness :
    ∃ rows, analyze_allocation [("X", 30), ("Y", 70)] [("X", 0.5), ("Y", 0.5)] 0
        = .ok rows ∧
      (rows.map DriftRow.drift_value).sum
        = ([(("X" : String), (30 : ℚ)), ("Y", 70)].map Prod.snd).sum *
            (1 - ([(("X" : String), (0.5 : ℚ)), ("Y", 0.5)].map Prod.snd).sum) ∧
      |(rows.map DriftRow.drift_value).sum|
        ≤ relTol * max |([(("X" : String), (0.5 : ℚ)), ("Y", 0.5)].map Prod.snd).sum| 1 *
            |([(("X" : String), (30 : ℚ)), ("Y", 70)].map Prod.snd).sum| :=
  analyze_allocation_drift_zero_sum [("X", 30), ("Y", 70)] [("X", 0.5), ("Y", 0.5)]
    (by simp) (by norm_num [isclose, relTol, abs_eq_max_neg, max_def])


/-!
The weighted allocation tree (allocation.py classes `AssetClass` and
`Allocation`).  `Allocation` extends `AssetClass` with a `weight`; children
live in an insertion-ordered dict.  The tree is embedded as a mutual
inductive with an ordered forest of children; the `parent` back-reference of
the source is implicit in the nesting (a child is owned by exactly the node
it was appended to with `<<`).
-/

mutual
inductive Allocation : Type where
  | node (name : String) (weight : ℚ) (children : AllocForest)
deriving DecidableEq
inductive AllocForest : Type where
  | nil
  | cons (hd : Allocation) (tl : AllocForest)
deriving DecidableEq
end

def Allocation.name : Allocation → String
  | .node n _ _ => n

def Allocation.weight : Allocation → ℚ
  | .node _ w _ => w

def Allocation.children : Allocation → AllocForest
  | .node _ _ cs => cs

/-- Build an ordered forest from a list of children (the insertion order of
the source's children dict). -/
def AllocForest.ofList : List Allocation → AllocForest
  | [] => .nil
  | c :: cs => .cons c (AllocForest.ofList cs)

def AllocForest.toList : AllocForest → List Allocation
  | .nil => []
  | .cons c cs => c :: AllocForest.toList cs

/-- Name/weight pairs of the direct children, in order (the
`child.name, child.weight` data used by `validate_weights`, allocation.py
lines 77 and 79). -/
def AllocForest.childPairs : AllocForest → List (String × ℚ)
  | .nil => []
  | .cons c cs => (c.name, c.weight) :: AllocForest.childPairs cs

/-- Content of one violation message of `validate_weights` (allocation.py
line 79).  The source renders these fields into the f-string
`'{name} allocation must equal 1.0, {children and weights} == {total:.4f},
error == {1.0 - total:.4f}'`; the embedding keeps the fields themselves. -/
structure WeightError where
  node_name : String
  child_weights : List (String × ℚ)
  total_alloc : ℚ
  error : ℚ
deriving DecidableEq

mutual
/-- Embedding of `Allocation.validate_weights` (allocation.py lines 73-82):
a leaf returns no errors; an internal node prepends its own violation (if its
children's weights are not `isclose` to 1) to the violations of its children,
in order.  The function is total: it never raises. -/
def Allocation.validate_weights : Allocation → List WeightError
  | .node n _ cs =>
    if cs = AllocForest.nil then []
    else
      (if isclose (((AllocForest.childPairs cs).map Prod.snd).sum) 1 then []
       else [{ node_name := n
               child_weights := AllocForest.childPairs cs
               total_alloc := ((AllocForest.childPairs cs).map Prod.snd).sum
               error := 1 - ((AllocForest.childPairs cs).map Prod.snd).sum }])
      ++ AllocForest.validateChildren cs

def AllocForest.validateChildren : AllocForest → List WeightError
  | .nil => []
  | .cons c cs => c.validate_weights ++ AllocForest.validateChildren cs
end

mutual
/-- Embedding of `Allocation.collect_weights` (allocation.py lines 84-90):
at a node with no children, or at the depth cutoff, the node's own
`(name, weight)` pair; otherwise the children's collected pairs with each
weight multiplied by this node's own weight. -/
def Allocation.collect_weights : Allocation → Nat → Nat → List (String × ℚ)
  | .node n w cs, max_depth, current_depth =>
    if cs = AllocForest.nil ∨ current_depth = max_depth then [(n, w)]
    else AllocForest.collectScaled cs max_depth current_depth w

def AllocForest.collectScaled : AllocForest → Nat → Nat → ℚ → List (String × ℚ)
  | .nil, _, _, _ => []
  | .cons c cs, md, cd, w =>
    ((c.collect_weights md (cd + 1)).map fun p => (p.1, w * p.2))
      ++ AllocForest.collectScaled cs md cd w
end

mutual
/-- Height of a node: 0 for a leaf, one more than the tallest child
otherwise ("depth exactly 2" means the root has height 2). -/
def Allocation.height : Allocation → Nat
  | .node _ _ cs =>
    if cs = AllocForest.nil then 0 else 1 + AllocForest.heightChildren cs

def AllocForest.heightChildren : AllocForest → Nat
  | .nil => 0
  | .cons c cs => max c.height (AllocForest.heightChildren cs)
end

mutual
/-- All nodes of the tree in depth-first pre-order. -/
def Allocation.nodes : Allocation → List Allocation
  | .node n w cs => .node n w cs :: AllocForest.nodesChildren cs

def AllocForest.nodesChildren : AllocForest → List Allocation
  | .nil => []
  | .cons c cs => c.nodes ++ AllocForest.nodesChildren cs
end

mutual
/-- Exact weight validity: every internal node's children's weights sum to
exactly 1 (the exact-arithmetic strengthening of the `isclose` invariant). -/
def Allocation.exactValid : Allocation → Prop
  | .node _ _ cs =>
    (cs = AllocForest.nil ∨ ((AllocForest.childPairs cs).map Prod.snd).sum = 1)
      ∧ AllocForest.exactValidChildren cs

def AllocForest.exactValidChildren : AllocForest → Prop
  | .nil => True
  | .cons c cs => c.exactValid ∧ AllocForest.exactValidChildren cs
end

mutual
/-- Modelled from the spec: "a node's *effective* global weight is the
product of its own weight and all ancestors' weights" — the list of
(leaf name, effective weight) pairs of a subtree, with `acc` the product of
the weights of the ancestors above the subtree. -/
def Allocation.effectiveLeafWeights : Allocation → ℚ → List (String × ℚ)
  | .node n w cs, acc =>
    if cs = AllocForest.nil then [(n, acc * w)]
    else AllocForest.effChildren cs (acc * w)

def AllocForest.effChildren : AllocForest → ℚ → List (String × ℚ)
  | .nil, _ => []
  | .cons c cs, acc =>
    c.effectiveLeafWeights acc ++ AllocForest.effChildren cs acc
end

/-- Violation content a single node contributes to `validate_weights`:
`none` for a leaf or a node whose children's weights are `isclose` to 1. -/
def weightErrOf (t : Allocation) : Option WeightError :=
  if t.children = AllocForest.nil then none
  else if isclose (((AllocForest.childPairs t.children).map Prod.snd).sum) 1 then none
  else some { node_name := t.name
              child_weights := AllocForest.childPairs t.children
              total_alloc := ((AllocForest.childPairs t.children).map Prod.snd).sum
              error := 1 - ((AllocForest.childPairs t.children).map Prod.snd).sum }


mutual
theorem validate_weights_eq_filterMap :
    ∀ t : Allocation, t.validate_weights = t.nodes.filterMap weightErrOf
  | .node n w cs => by
    simp only [Allocation.validate_weights, Allocation.nodes, List.filterMap_cons]
    by_cases h0 : cs = AllocForest.nil
    · subst h0
      simp [weightErrOf, Allocation.children, AllocForest.nodesChildren,
        AllocForest.validateChildren]
    · rw [if_neg h0]
      by_cases h1 : isclose (((AllocForest.childPairs cs).map Prod.snd).sum) 1
      · rw [if_pos h1]
        have he : weightErrOf (.node n w cs) = none := by
          simp [weightErrOf, Allocation.children, h0, h1]
        rw [he, validateChildren_eq_filterMap cs]
        simp
      · rw [if_neg h1]
        have he : weightErrOf (.node n w cs)
            = some { node_name := n
                     child_weights := AllocForest.childPairs cs
                     total_alloc := ((AllocForest.childPairs cs).map Prod.snd).sum
                     error := 1 - ((AllocForest.childPairs cs).map Prod.snd).sum } := by
          simp [weightErrOf, Allocation.children, Allocation.name, h0, h1]
        rw [he, validateChildren_eq_filterMap cs]
        simp

theorem validateChildren_eq_filterMap :
    ∀ cs : AllocForest, AllocForest.validateChildren cs
      = (AllocForest.nodesChildren cs).filterMap weightErrOf
  | .nil => by
    simp [AllocForest.validateChildren, AllocForest.nodesChildren]
  | .cons c cs => by
    rw [AllocForest.validateChildren, AllocForest.nodesChildren,
      List.filterMap_append, validate_weights_eq_filterMap c,
      validateChildren_eq_filterMap cs]
end

/-- C4: `validate_weights` never raises (it is a total function into a list
of violation records); it returns one violation per failing internal node, in
pre-order, each carrying the node's name, its children's names and weights,
the computed sum, and the signed error `1.0 - sum`; and the returned list is
empty iff every internal node's children's weights sum to 1.0 within the
`math.isclose` 1e-9 relative tolerance. -/
theorem validate_weights_spec (t : Allocation) :
    t.validate_weights = t.nodes.filterMap weightErrOf ∧
    (t.validate_weights = [] ↔
      ∀ n ∈ t.nodes, n.children ≠ AllocForest.nil →
        isclose (((AllocForest.childPairs n.children).map Prod.snd).sum) 1) := by
  refine ⟨validate_weights_eq_filterMap t, ?_⟩
  rw [validate_weights_eq_filterMap t, List.filterMap_eq_nil_iff]
  constructor
  · intro h n hn hch
    have hnone := h n hn
    by_contra hcl
    simp [weightErrOf, hch, hcl] at hnone
  · intro h n hn
    by_cases hch : n.children = AllocForest.nil
    · simp [weightErrOf, hch]
    · simp [weightErrOf, hch, h n hn hch]

/-- C4 (witness): the validation theorem applied to the concrete tree with
root `G` of children `A x 0.6`, `B x 0.3` (sum 0.9, one violation at the
root, none at the leaves). -/
theorem validate_weights_spec_witness :
    (Allocation.node "G" 1 (AllocForest.ofList
        [.node "A" 0.6 .nil, .node "B" 0.3 .nil])).validate_weights
      = ((Allocation.node "G" 1 (AllocForest.ofList
        [.node "A" 0.6 .nil, .node "B" 0.3 .nil])).nodes).filterMap weightErrOf ∧
    ((Allocation.node "G" 1 (AllocForest.ofList
        [.node "A" 0.6 .nil, .node "B" 0.3 .nil])).validate_weights = [] ↔
      ∀ n ∈ (Allocation.node "G" 1 (AllocForest.ofList
          [.node "A" 0.6 .nil, .node "B" 0.3 .nil])).nodes,
        n.children ≠ AllocForest.nil →
          isclose (((AllocForest.childPairs n.children).map Prod.snd).sum) 1) :=
  validate_weights_spec (Allocation.node "G" 1 (AllocForest.ofList
    [.node "A" 0.6 .nil, .node "B" 0.3 .nil]))


theorem sum_map_snd_scale (w : ℚ) (l : List (String × ℚ)) :
    ((l.map fun p => (p.1, w * p.2)).map Prod.snd).sum = w * (l.map Prod.snd).sum := by
  induction l with
  | nil => simp
  | cons a l ih =>
    simp only [List.map_cons, List.sum_cons]
    rw [ih]
    ring

mutual
theorem collect_weights_sum_of_exactValid :
    ∀ (t : Allocation), t.exactValid → ∀ (md cd : Nat),
      ((t.collect_weights md cd).map Prod.snd).sum = t.weight
  | .node n w cs => fun hv md cd => by
    rcases hv with ⟨hsum, hch⟩
    by_cases h : cs = AllocForest.nil ∨ cd = md
    · simp [Allocation.collect_weights, h, Allocation.weight]
    · rw [Allocation.collect_weights.eq_def]
      simp only [if_neg h, Allocation.weight]
      rw [collectScaled_sum_of_exactValid cs hch md cd w]
      rcases hsum with hnil | hone
      · exact absurd (Or.inl hnil) h
      · rw [hone, mul_one]

theorem collectScaled_sum_of_exactValid :
    ∀ (cs : AllocForest), AllocForest.exactValidChildren cs →
      ∀ (md cd : Nat) (w : ℚ),
      ((AllocForest.collectScaled cs md cd w).map Prod.snd).sum
        = w * ((AllocForest.childPairs cs).map Prod.snd).sum
  | .nil => fun _ md cd w => by
    simp [AllocForest.collectScaled, AllocForest.childPairs]
  | .cons c cs => fun hv md cd w => by
    rcases hv with ⟨hc, hcs⟩
    simp only [AllocForest.collectScaled, AllocForest.childPairs, List.map_append,
      List.sum_append, List.map_cons, List.sum_cons]
    rw [collectScaled_sum_of_exactValid cs hcs md cd w, sum_map_snd_scale,
      collect_weights_sum_of_exactValid c hc md (cd + 1)]
    ring
end

/-- C6 (counterexample): two trees of depth exactly 2 on which the claimed
sum is 0.5, not 1.0 within tolerance: root `R x 1` over `C x 0.5` over
`L x 1` (an invalid allocation: R's children sum to 0.5), and root
`R x 0.5` over `C x 1` over `L x 1` (every internal node's children sum to
exactly 1, but the root's own weight is not 1). -/
theorem collect_weights_depth2_sum_cex :
    ((Allocation.node "R" 1 (AllocForest.ofList
        [.node "C" 0.5 (AllocForest.ofList [.node "L" 1 .nil])])).height = 2 ∧
      ¬ isclose ((((Allocation.node "R" 1 (AllocForest.ofList
        [.node "C" 0.5 (AllocForest.ofList [.node "L" 1 .nil])])).collect_weights
          2 0).map Prod.snd).sum) 1) ∧
    ((Allocation.node "R" 0.5 (AllocForest.ofList
        [.node "C" 1 (AllocForest.ofList [.node "L" 1 .nil])])).height = 2 ∧
      (Allocation.node "R" 0.5 (AllocForest.ofList
        [.node "C" 1 (AllocForest.ofList [.node "L" 1 .nil])])).exactValid ∧
      ¬ isclose ((((Allocation.node "R" 0.5 (AllocForest.ofList
        [.node "C" 1 (AllocForest.ofList [.node "L" 1 .nil])])).collect_weights
          2 0).map Prod.snd).sum) 1) := by
  refine ⟨⟨?_, ?_⟩, ?_, ?_, ?_⟩
  · simp [Allocation.height, AllocForest.heightChildren, AllocForest.ofList]
  · simp [AllocForest.ofList, Allocation.collect_weights,
      AllocForest.collectScaled]
    norm_num [isclose, relTol, abs_eq_max_neg, max_def]
  · simp [Allocation.height, AllocForest.heightChildren, AllocForest.ofList]
  · norm_num [Allocation.exactValid, AllocForest.exactValidChildren,
      AllocForest.childPairs, AllocForest.ofList, Allocation.name,
      Allocation.weight]
  · simp [AllocForest.ofList, Allocation.collect_weights,
      AllocForest.collectScaled]
    norm_num [isclose, relTol, abs_eq_max_neg, max_def]

/-- C6 (amended: restricted to trees whose internal nodes' children's weights
sum to exactly 1 and whose root weight is 1.0): for every such tree of depth
exactly 2, the weights returned by `collect_weights(2, 0)` sum to exactly 1
(weights are conserved top-to-bottom); and the spec scenario — a root of
weight 1.0 with leaf children `A = 0.6` and `B = 0.4` — yields
`[('A', 0.6), ('B', 0.4)]`. -/
theorem collect_weights_depth2_conserves (t : Allocation)
    (_hd : t.height = 2) (hw : t.weight = 1) (hv : t.exactValid) :
    ((t.collect_weights 2 0).map Prod.snd).sum = 1 ∧
    (Allocation.node "Global" 1 (AllocForest.ofList
        [.node "A" 0.6 .nil, .node "B" 0.4 .nil])).collect_weights 2 0
      = [("A", 0.6), ("B", 0.4)] := by
  constructor
  · rw [collect_weights_sum_of_exactValid t hv 2 0, hw]
  · simp [AllocForest.ofList, Allocation.collect_weights,
      AllocForest.collectScaled]

/-- C6 (witness): the conservation theorem applied to a concrete valid tree
of depth exactly 2 (root weight 1, classes 0.5/0.5, leaves 1 and 0.25/0.75). -/
theorem collect_weights_depth2_conserves_witness :
    (((Allocation.node "G" 1 (AllocForest.ofList
        [.node "A" 0.5 (AllocForest.ofList [.node "X" 1 .nil]),
         .node "B" 0.5 (AllocForest.ofList
           [.node "Y" 0.25 .nil, .node "Z" 0.75 .nil])])).collect_weights 2 0).map
      Prod.snd).sum = 1 ∧
    (Allocation.node "Global" 1 (AllocForest.ofList
        [.node "A" 0.6 .nil, .node "B" 0.4 .nil])).collect_weights 2 0
      = [("A", 0.6), ("B", 0.4)] :=
  collect_weights_depth2_conserves
    (Allocation.node "G" 1 (AllocForest.ofList
      [.node "A" 0.5 (AllocForest.ofList [.node "X" 1 .nil]),
       .node "B" 0.5 (AllocForest.ofList
         [.node "Y" 0.25 .nil, .node "Z" 0.75 .nil])]))
    (by simp [Allocation.height, AllocForest.heightChildren, AllocForest.ofList])
    rfl
    (by norm_num [Allocation.exactValid, AllocForest.exactValidChildren,
      AllocForest.childPairs, AllocForest.ofList, Allocation.name, Allocation.weight])


theorem collectScaled_eq_flatMap :
    ∀ (cs : AllocForest) (md cd : Nat) (w : ℚ),
      AllocForest.collectScaled cs md cd w
        = cs.toList.flatMap fun c =>
            (c.collect_weights md (cd + 1)).map fun p => (p.1, w * p.2)
  | .nil, _, _, _ => by simp [AllocForest.collectScaled, AllocForest.toList]
  | .cons c cs, md, cd, w => by
    simp only [AllocForest.collectScaled, AllocForest.toList, List.flatMap_cons]
    rw [collectScaled_eq_flatMap cs md cd w]

mutual
theorem effectiveLeafWeights_scale :
    ∀ (t : Allocation) (a b : ℚ),
      (t.effectiveLeafWeights b).map (fun p => (p.1, a * p.2))
        = t.effectiveLeafWeights (a * b)
  | .node n w cs => fun a b => by
    by_cases h : cs = AllocForest.nil
    · subst h
      simp [Allocation.effectiveLeafWeights, mul_assoc]
    · simp only [Allocation.effectiveLeafWeights, if_neg h]
      rw [effChildren_scale cs a (b * w), mul_assoc]

theorem effChildren_scale :
    ∀ (cs : AllocForest) (a acc : ℚ),
      (AllocForest.effChildren cs acc).map (fun p => (p.1, a * p.2))
        = AllocForest.effChildren cs (a * acc)
  | .nil => fun a acc => by simp [AllocForest.effChildren]
  | .cons c cs => fun a acc => by
    simp only [AllocForest.effChildren, List.map_append]
    rw [effectiveLeafWeights_scale c a acc, effChildren_scale cs a acc]
end

theorem height_le_heightChildren :
    ∀ (cs : AllocForest), ∀ c ∈ cs.toList,
      c.height ≤ AllocForest.heightChildren cs
  | .nil => by simp [AllocForest.toList]
  | .cons d cs => by
    intro c hc
    simp only [AllocForest.toList, List.mem_cons] at hc
    rcases hc with rfl | hc
    · simp only [AllocForest.heightChildren]
      exact le_max_left _ _
    · exact le_trans (height_le_heightChildren cs c hc) (by
        simp only [AllocForest.heightChildren]
        exact le_max_right _ _)

mutual
theorem collect_weights_eq_eff :
    ∀ (t : Allocation) (md cd : Nat), t.height + cd ≤ md →
      t.collect_weights md cd = t.effectiveLeafWeights 1
  | .node n w cs => fun md cd hle => by
    by_cases h : cs = AllocForest.nil
    · subst h
      simp [Allocation.collect_weights, Allocation.effectiveLeafWeights]
    · have hh : (Allocation.node n w cs).height
          = 1 + AllocForest.heightChildren cs := by
        simp [Allocation.height, h]
      rw [hh] at hle
      have hcd : ¬ cd = md := by omega
      rw [Allocation.collect_weights.eq_def]
      simp only [if_neg (not_or.mpr ⟨h, hcd⟩)]
      simp only [Allocation.effectiveLeafWeights, if_neg h, one_mul]
      exact collectScaled_eq_eff cs md cd w (by omega)

theorem collectScaled_eq_eff :
    ∀ (cs : AllocForest) (md cd : Nat) (w : ℚ),
      AllocForest.heightChildren cs + (cd + 1) ≤ md →
      AllocForest.collectScaled cs md cd w = AllocForest.effChildren cs w
  | .nil => fun md cd w _ => by
    simp [AllocForest.collectScaled, AllocForest.effChildren]
  | .cons c cs => fun md cd w hle => by
    have hmax1 : c.height ≤ AllocForest.heightChildren (AllocForest.cons c cs) := by
      simp only [AllocForest.heightChildren]
      exact le_max_left _ _
    have hmax2 : AllocForest.heightChildren cs
        ≤ AllocForest.heightChildren (AllocForest.cons c cs) := by
      simp only [AllocForest.heightChildren]
      exact le_max_right _ _
    simp only [AllocForest.collectScaled, AllocForest.effChildren]
    rw [collect_weights_eq_eff c md (cd + 1) (by omega),
      collectScaled_eq_eff cs md cd w (by omega),
      effectiveLeafWeights_scale c w 1, mul_one]
end

/-- C7: `collect_weights(maxDepth, currentDepth)` returns the single pair
`(name, weight)` — the node's local weight — when the node has no children or
`currentDepth == maxDepth` (any weight mass in descendants below the cutoff
is dropped); otherwise it returns each child's recursively collected pairs
with every weight multiplied by the current node's own weight; consequently a
top-level call with `currentDepth = 0` at the root of a tree of height at
most `maxDepth` produces exactly the leaves' global effective weights (each
leaf's weight multiplied through all its ancestors' weights, the root's own
weight included). -/
theorem collect_weights_spec :
    (∀ (n : String) (w : ℚ) (cs : AllocForest) (md cd : Nat),
      cs = AllocForest.nil ∨ cd = md →
        (Allocation.node n w cs).collect_weights md cd = [(n, w)]) ∧
    (∀ (n : String) (w : ℚ) (cs : AllocForest) (md cd : Nat),
      ¬ (cs = AllocForest.nil ∨ cd = md) →
        (Allocation.node n w cs).collect_weights md cd
          = cs.toList.flatMap fun c =>
              (c.collect_weights md (cd + 1)).map fun p => (p.1, w * p.2)) ∧
    (∀ (t : Allocation) (md : Nat), t.height ≤ md →
      t.collect_weights md 0 = t.effectiveLeafWeights 1) := by
  refine ⟨?_, ?_, ?_⟩
  · intro n w cs md cd h
    simp [Allocation.collect_weights, h]
  · intro n w cs md cd h
    rw [Allocation.collect_weights.eq_def]
    simp only [if_neg h]
    exact collectScaled_eq_flatMap cs md cd w
  · intro t md h
    exact collect_weights_eq_eff t md 0 (by omega)

/-- C7 (witness): the three parts of the collect_weights theorem applied to
concrete trees — a leaf at cutoff, an internal node below the cutoff, and a
height-1 tree collected with a larger depth bound. -/
theorem collect_weights_spec_witness :
    (Allocation.node "A" 0.6 AllocForest.nil).collect_weights 2 0 = [("A", 0.6)] ∧
    (Allocation.node "G" 0.5 (AllocForest.ofList
        [.node "A" 0.25 .nil, .node "B" 0.75 .nil])).collect_weights 2 0
      = (AllocForest.ofList
          [Allocation.node "A" 0.25 .nil, .node "B" 0.75 .nil]).toList.flatMap
          (fun c => (c.collect_weights 2 1).map fun p => (p.1, (0.5 : ℚ) * p.2)) ∧
    (Allocation.node "G" 0.5 (AllocForest.ofList
        [.node "A" 0.25 .nil, .node "B" 0.75 .nil])).collect_weights 5 0
      = (Allocation.node "G" 0.5 (AllocForest.ofList
          [.node "A" 0.25 .nil, .node "B" 0.75 .nil])).effectiveLeafWeights 1 :=
  ⟨collect_weights_spec.1 "A" 0.6 AllocForest.nil 2 0 (Or.inl rfl),
   collect_weights_spec.2.1 "G" 0.5 (AllocForest.ofList
     [.node "A" 0.25 .nil, .node "B" 0.75 .nil]) 2 0 (by simp [AllocForest.ofList]),
   collect_weights_spec.2.2 (Allocation.node "G" 0.5 (AllocForest.ofList
     [.node "A" 0.25 .nil, .node "B" 0.75 .nil])) 5
     (by simp [Allocation.height, AllocForest.heightChildren, AllocForest.ofList])⟩


/-!
The unweighted classification taxonomy (allocation.py class `AssetClass`,
lines 8-58, and the module-level `asset_classes` instance of lines 114-153),
together with the enrichment-step lookup `get_asset_class` of
src/Analyzer.py lines 80-82.
-/

mutual
inductive AClass : Type where
  | node (name : String) (children : AClassForest)
deriving DecidableEq
inductive AClassForest : Type where
  | nil
  | cons (hd : AClass) (tl : AClassForest)
deriving DecidableEq
end

def AClass.name : AClass → String
  | .node n _ => n

def AClass.children : AClass → AClassForest
  | .node _ cs => cs

def AClassForest.ofList : List AClass → AClassForest
  | [] => .nil
  | c :: cs => .cons c (AClassForest.ofList cs)

def AClassForest.toList : AClassForest → List AClass
  | .nil => []
  | .cons c cs => c :: AClassForest.toList cs

mutual
/-- Embedding of `AssetClass.search` (allocation.py lines 49-58): the node
itself if its name equals the argument exactly, else `None` for a leaf, else
the first successful search among the children in insertion order. -/
def AClass.search : AClass → String → Option AClass
  | .node n cs, target =>
    if n = target then some (.node n cs)
    else if cs = AClassForest.nil then none
    else AClassForest.searchList cs target

def AClassForest.searchList : AClassForest → String → Option AClass
  | .nil, _ => none
  | .cons c cs, target =>
    match c.search target with
    | some found => some found
    | none => AClassForest.searchList cs target
end

mutual
/-- Embedding of `search` combined with the parent chain the source keeps as
back-references: the result pairs the found node with exactly the list
`found.hierarchy()` returns (allocation.py lines 40-47) — the names of the
strict ancestors from the root down to, and excluding, the found node.  The
accumulator `anc` holds the names of the ancestors above the current
subtree. -/
def AClass.searchH : List String → AClass → String → Option (List String × AClass)
  | anc, .node n cs, target =>
    if n = target then some (anc, .node n cs)
    else if cs = AClassForest.nil then none
    else AClassForest.searchHList (anc ++ [n]) cs target

def AClassForest.searchHList :
    List String → AClassForest → String → Option (List String × AClass)
  | _, .nil, _ => none
  | anc, .cons c cs, target =>
    match AClass.searchH anc c target with
    | some r => some r
    | none => AClassForest.searchHList anc cs target
end

mutual
/-- Depth-first pre-order enumeration of a taxonomy: each node paired with
the names of its strict ancestors from the root down (excluding itself). -/
def AClass.preorder : List String → AClass → List (List String × AClass)
  | anc, .node n cs => (anc, .node n cs) :: AClassForest.preorderList (anc ++ [n]) cs

def AClassForest.preorderList :
    List String → AClassForest → List (List String × AClass)
  | _, .nil => []
  | anc, .cons c cs => AClass.preorder anc c ++ AClassForest.preorderList anc cs
end

mutual
/-- All names occurring in a taxonomy, in pre-order. -/
def AClass.names : AClass → List String
  | .node n cs => n :: AClassForest.namesList cs

def AClassForest.namesList : AClassForest → List String
  | .nil => []
  | .cons c cs => c.names ++ AClassForest.namesList cs
end

/-- The node `target` is reached from `t` by descending through children,
passing exactly the nodes named by `path` (so `path` is the list of strict
ancestors of `target` below and including `t`, in order). -/
def AClass.chainTo : AClass → List String → AClass → Prop
  | t, [], target => t = target
  | t, p :: ps, target =>
    t.name = p ∧ ∃ c ∈ t.children.toList, AClass.chainTo c ps target


mutual
theorem search_eq_searchH :
    ∀ (t : AClass) (anc : List String) (target : String),
      t.search target = (AClass.searchH anc t target).map Prod.snd
  | .node n cs => fun anc target => by
    simp only [AClass.search, AClass.searchH]
    by_cases h1 : n = target
    · simp [h1]
    · by_cases h2 : cs = AClassForest.nil
      · simp [h1, h2]
      · simp only [if_neg h1, if_neg h2]
        exact searchList_eq_searchHList cs (anc ++ [n]) target

theorem searchList_eq_searchHList :
    ∀ (cs : AClassForest) (anc : List String) (target : String),
      AClassForest.searchList cs target
        = (AClassForest.searchHList anc cs target).map Prod.snd
  | .nil => fun anc target => by
    simp [AClassForest.searchList, AClassForest.searchHList]
  | .cons c cs => fun anc target => by
    simp only [AClassForest.searchList, AClassForest.searchHList]
    rw [search_eq_searchH c anc target]
    cases AClass.searchH anc c target with
    | none => simp [searchList_eq_searchHList cs anc target]
    | some r => simp

end

mutual
theorem searchH_eq_find :
    ∀ (t : AClass) (anc : List String) (target : String),
      AClass.searchH anc t target
        = (AClass.preorder anc t).find? fun p => p.2.name = target
  | .node n cs => fun anc target => by
    simp only [AClass.searchH, AClass.preorder]
    by_cases h1 : n = target
    · rw [if_pos h1, List.find?_cons_of_pos _ (by simp [AClass.name, h1])]
    · rw [if_neg h1, List.find?_cons_of_neg _ (by simp [AClass.name, h1])]
      by_cases h2 : cs = AClassForest.nil
      · subst h2
        simp [AClassForest.preorderList]
      · rw [if_neg h2]
        exact searchHList_eq_find cs (anc ++ [n]) target

theorem searchHList_eq_find :
    ∀ (cs : AClassForest) (anc : List String) (target : String),
      AClassForest.searchHList anc cs target
        = (AClassForest.preorderList anc cs).find? fun p => p.2.name = target
  | .nil => fun anc target => by
    simp [AClassForest.searchHList, AClassForest.preorderList]
  | .cons c cs => fun anc target => by
    simp only [AClassForest.searchHList, AClassForest.preorderList, List.find?_append]
    rw [← searchH_eq_find c anc target]
    cases AClass.searchH anc c target with
    | none => simp [searchHList_eq_find cs anc target]
    | some r => simp

end

theorem mem_preorderList :
    ∀ (cs : AClassForest) (anc : List String) (e : List String × AClass),
      e ∈ AClassForest.preorderList anc cs →
        ∃ c ∈ cs.toList, e ∈ AClass.preorder anc c
  | .nil => by simp [AClassForest.preorderList]
  | .cons c cs => by
    intro anc e he
    simp only [AClassForest.preorderList, List.mem_append] at he
    rcases he with he | he
    · exact ⟨c, by simp [AClassForest.toList], he⟩
    · obtain ⟨d, hd, hde⟩ := mem_preorderList cs anc e he
      exact ⟨d, by simp [AClassForest.toList, hd], hde⟩

mutual
theorem preorder_chainTo :
    ∀ (t : AClass) (anc : List String) (e : List String × AClass),
      e ∈ AClass.preorder anc t →
        ∃ rel, e.1 = anc ++ rel ∧ AClass.chainTo t rel e.2
  | .node n cs => by
    intro anc e he
    simp only [AClass.preorder, List.mem_cons] at he
    rcases he with rfl | he
    · exact ⟨[], by simp, rfl⟩
    · obtain ⟨c, hc, rel, hrel, hchain⟩ := preorderList_chainTo cs (anc ++ [n]) e he
      refine ⟨n :: rel, by simp [hrel], rfl, c, ?_, hchain⟩
      simpa [AClass.children] using hc

theorem preorderList_chainTo :
    ∀ (cs : AClassForest) (anc : List String) (e : List String × AClass),
      e ∈ AClassForest.preorderList anc cs →
        ∃ c ∈ cs.toList, ∃ rel, e.1 = anc ++ rel ∧ AClass.chainTo c rel e.2
  | .nil => by simp [AClassForest.preorderList]
  | .cons c cs => by
    intro anc e he
    simp only [AClassForest.preorderList, List.mem_append] at he
    rcases he with he | he
    · obtain ⟨rel, hrel, hch⟩ := preorder_chainTo c anc e he
      exact ⟨c, by simp [AClassForest.toList], rel, hrel, hch⟩
    · obtain ⟨d, hd, rel, hrel, hch⟩ := preorderList_chainTo cs anc e he
      exact ⟨d, by simp [AClassForest.toList, hd], rel, hrel, hch⟩
end

mutual
theorem preorder_path_names :
    ∀ (t : AClass) (anc : List String) (e : List String × AClass),
      e ∈ AClass.preorder anc t →
        ∀ x ∈ e.1, x ∈ anc ∨ x ∈ t.names
  | .node n cs => by
    intro anc e he x hx
    simp only [AClass.preorder, List.mem_cons] at he
    rcases he with rfl | he
    · exact Or.inl hx
    · rcases preorderList_path_names cs (anc ++ [n]) e he x hx with hxa | hxn
      · rcases List.mem_append.mp hxa with hxa | hxa
        · exact Or.inl hxa
        · right
          simp only [AClass.names, List.mem_cons]
          left
          simpa using hxa
      · right
        simp only [AClass.names, List.mem_cons]
        exact Or.inr hxn

theorem preorderList_path_names :
    ∀ (cs : AClassForest) (anc : List String) (e : List String × AClass),
      e ∈ AClassForest.preorderList anc cs →
        ∀ x ∈ e.1, x ∈ anc ∨ x ∈ AClassForest.namesList cs
  | .nil => by simp [AClassForest.preorderList]
  | .cons c cs => by
    intro anc e he x hx
    simp only [AClassForest.preorderList, List.mem_append] at he
    simp only [AClassForest.namesList, List.mem_append]
    rcases he with he | he
    · rcases preorder_path_names c anc e he x hx with hxa | hxn
      · exact Or.inl hxa
      · exact Or.inr (Or.inl hxn)
    · rcases preorderList_path_names cs anc e he x hx with hxa | hxn
      · exact Or.inl hxa
      · exact Or.inr (Or.inr hxn)
end

/-- C8: on every taxonomy, `search(name)` is a depth-first pre-order
traversal — the node itself first, then the children in insertion order —
returning the first node whose name exactly equals the argument (`none` when
no node matches); and for every found node, the parent chain that
`hierarchy()` reads off returns the ordered list of ancestor names from the
root down to, and excluding, the node itself. -/
theorem search_preorder_spec :
    (∀ (anc : List String) (t : AClass) (target : String),
      AClass.searchH anc t target
        = (AClass.preorder anc t).find? fun p => p.2.name = target) ∧
    (∀ (t : AClass) (target : String),
      t.search target = (AClass.searchH [] t target).map Prod.snd) ∧
    (∀ (t : AClass) (target : String) (p : List String) (n : AClass),
      AClass.searchH [] t target = some (p, n) → AClass.chainTo t p n) := by
  refine ⟨fun anc t target => searchH_eq_find t anc target,
    fun t target => search_eq_searchH t [] target, ?_⟩
  intro t target p n h
  rw [searchH_eq_find t [] target] at h
  have hmem : (p, n) ∈ AClass.preorder [] t := List.mem_of_find?_eq_some h
  obtain ⟨rel, hrel, hchain⟩ := preorder_chainTo t [] (p, n) hmem
  simpa [show p = rel by simpa using hrel] using hchain

/-- C8 (witness): on the taxonomy `Root → [Eq → [T1], T1]` the search for
`T1` finds the deeper pre-order occurrence first, and its ancestor chain is
`[Root, Eq]`. -/
theorem search_preorder_spec_witness :
    AClass.chainTo
      (AClass.node "Root" (AClassForest.ofList
        [.node "Eq" (AClassForest.ofList [.node "T1" .nil]), .node "T1" .nil]))
      ["Root", "Eq"] (AClass.node "T1" AClassForest.nil) :=
  search_preorder_spec.2.2
    (AClass.node "Root" (AClassForest.ofList
      [.node "Eq" (AClassForest.ofList [.node "T1" .nil]), .node "T1" .nil]))
    "T1" ["Root", "Eq"] (AClass.node "T1" AClassForest.nil) rfl


/-- Leaf (ticker) node of the classification taxonomy. -/
def aLeaf (n : String) : AClass := .node n .nil

/-- The `US Equities` subtree of `asset_classes` (allocation.py lines
115 and 124-129, populated by the loop of lines 151-153). -/
def us_equities : AClass :=
  .node "US Equities" (AClassForest.ofList (List.map aLeaf
    ["FXAIX", "ITOT", "AVUV", "QQQM", "QQQJ", "COWZ", "SCHD", "OMFL",
     "AAPL", "ABNB", "ADBE", "AMZN", "AMD", "BRKB", "CELH",
     "CRM", "GOOG", "GOOGL", "KVUE", "META", "MNST", "MSFT",
     "NET", "NVDA", "RXRX", "SOXX", "TEAM", "TSLA", "TTD"]))

/-- The `Intl Equities` subtree (allocation.py lines 116 and 130-133). -/
def intl_equities : AClass :=
  .node "Intl Equities" (AClassForest.ofList (List.map aLeaf
    ["VEA", "DXJ", "HEFA", "AVDV", "DFIV", "ASML", "SHOP", "NVO", "TSM"]))

/-- The `EM Equities` subtree (allocation.py lines 117 and 134-136). -/
def em_equities : AClass :=
  .node "EM Equities" (AClassForest.ofList (List.map aLeaf
    ["SPEM", "AVES", "XCEM"]))

/-- The `US Bonds` subtree (allocation.py lines 118 and 137-139). -/
def us_bonds : AClass :=
  .node "US Bonds" (AClassForest.ofList (List.map aLeaf
    ["PFXF", "VTEB", "VWIUX", "VWALX", "BND", "FBND", "JAAA", "ICLO",
     "CD", "Treasury"]))

/-- The `Short-Term` subtree (allocation.py lines 119 and 140-142). -/
def short_term : AClass :=
  .node "Short-Term" (AClassForest.ofList (List.map aLeaf
    ["TFLO", "FLOT", "JMST", "TBIL", "Money Market", "VMSXX"]))

/-- The `US Real Estate` subtree (allocation.py lines 120 and 143-145). -/
def us_real_estate : AClass :=
  .node "US Real Estate" (AClassForest.ofList (List.map aLeaf
    ["VGSLX", "AVRE"]))

/-- The `Alternatives` subtree (allocation.py lines 121 and 146-148). -/
def alternatives : AClass :=
  .node "Alternatives" (AClassForest.ofList (List.map aLeaf
    ["CTA", "DBMF", "KMLM"]))

/-- The module-level classification taxonomy `asset_classes`
(allocation.py lines 114-153): root `Global`, one child per asset class in
insertion order, each holding its tickers as leaves. -/
def asset_classes : AClass :=
  .node "Global" (AClassForest.ofList
    [us_equities, intl_equities, em_equities, us_bonds, short_term,
     us_real_estate, alternatives])

/-- Python list indexing `l[i]`: the element when `i` is in range, an
`IndexError` otherwise. -/
def pyGetIndex (l : List String) (i : Nat) : Except Unit String :=
  if h : i < l.length then .ok (l.get ⟨i, h⟩) else .error ()

/-- Embedding of `get_asset_class` (src/Analyzer.py lines 80-82):
`asset_class.hierarchy()[1] if asset_class else 'Unknown'` where
`asset_class = asset_classes.search(ticker)`.  The hierarchy of the found
node is the ancestor-name list carried by `searchH`; indexing it at 1 can
raise `IndexError`. -/
def get_asset_class (ticker : String) : Except Unit String :=
  match AClass.searchH [] asset_classes ticker with
  | none => .ok "Unknown"
  | some (anc, _) => pyGetIndex anc 1

/-- C10: `get_asset_class` returns the `'Unknown'` sentinel exactly when
`search` finds no node in the `asset_classes` taxonomy; and whenever the
search match is a node of depth less than 2 (the root, or a direct child of
the root such as an asset-class name), `hierarchy()[1]` raises `IndexError`
instead of returning a category — the non-fatal fallback does not cover
found-but-shallow matches. -/
theorem get_asset_class_spec :
    (∀ ticker : String, get_asset_class ticker = .ok "Unknown"
        ↔ AClass.search asset_classes ticker = none) ∧
    (∀ (ticker : String) (p : List String × AClass),
      AClass.searchH [] asset_classes ticker = some p → p.1.length < 2 →
        get_asset_class ticker = .error ()) := by
  constructor
  · intro ticker
    rw [search_eq_searchH asset_classes [] ticker]
    constructor
    · intro h
      cases he : AClass.searchH [] asset_classes ticker with
      | none => simp
      | some r =>
        obtain ⟨anc, n⟩ := r
        have h' : pyGetIndex anc 1 = Except.ok "Unknown" := by
          simpa [get_asset_class, he] using h
        by_cases hlen : 1 < anc.length
        · have hget : anc.get ⟨1, hlen⟩ = "Unknown" := by
            simpa [pyGetIndex, hlen] using h'
          have hmem : "Unknown" ∈ anc := hget ▸ anc.get_mem 1 hlen
          have hfind := he
          rw [searchH_eq_find asset_classes [] ticker] at hfind
          have hpre : (anc, n) ∈ AClass.preorder [] asset_classes :=
            List.mem_of_find?_eq_some hfind
          have hnames : "Unknown" ∈ asset_classes.names := by
            rcases preorder_path_names asset_classes [] (anc, n) hpre
                "Unknown" hmem with hx | hx
            · simp at hx
            · exact hx
          have hnot : "Unknown" ∉ asset_classes.names := by decide
          exact absurd hnames hnot
        · have herr : pyGetIndex anc 1 = .error () := by
            simp [pyGetIndex, hlen]
          rw [herr] at h'
          exact absurd h' (by simp)
    · intro h
      have hnone : AClass.searchH [] asset_classes ticker = none := by
        cases he : AClass.searchH [] asset_classes ticker with
        | none => rfl
        | some r =>
          rw [he] at h
          simp at h
      simp [get_asset_class, hnone]
  · intro ticker p hp hlen
    obtain ⟨anc, n⟩ := p
    have hlen' : ¬ 1 < anc.length := by
      simp only [] at hlen
      omega
    simp [get_asset_class, hp, pyGetIndex, hlen']

/-- C10 (witness): the ticker `US Equities` is found in the taxonomy at
depth 1 (a direct child of the root), so the enrichment lookup raises
`IndexError` rather than returning `'Unknown'` or a category. -/
theorem get_asset_class_spec_witness :
    get_asset_class "US Equities" = .error () :=
  get_asset_class_spec.2 "US Equities" (["Global"], us_equities) rfl
    (by decide)

end Portofino
